import Mathlib

/-!
# Verification of the matcher core of `lit` (`src/matcher.rs`)

This file gives a shallow embedding of the pattern-matching core of the
`lit` test tool: the scanner `Matcher::parse`, the resolver
`Matcher::resolve`, and the serializer (`impl fmt::Display for Matcher`),
together with theorems settling the specification claims about them.

Strings are modelled as `List Char` (Rust iterates `s.chars()`).  The two
places where the Rust code can panic are modelled by `Option`/`Except`
results:

* `parse` returns `none` exactly when the Rust code panics.  The one
  modelled panic source is the byte slice `&regex[0..first_colon_idx]`,
  which slices at the *character* position of the first `:` interpreted as
  a *byte* offset and panics when that offset is not a UTF-8 character
  boundary of the body.
* `resolve` returns `Except.error` with the panic message of the
  `.expect("no variable with that name")` call on an unbound variable.

Machine-integer behaviour is made explicit: `chars.nth(name.len() - 1)`
computes `name.len() - 1` in `usize`; for an empty name this wraps to
`2 ^ 64 - 1` (release-profile wrapping semantics; a debug build would
abort on the overflow check instead), so the model skips
`(utf8Len name + (2 ^ 64 - 1)) % 2 ^ 64 + 1` characters.  Note also that
`name.len()` is the UTF-8 *byte* length of the name, not its character
count, which the model preserves via `utf8Len`.
-/

/-- The component type of `matcher.rs`:
`enum Component { Text(String), Variable(String), Regex(String),
NamedRegex { name: String, regex: String } }`. -/
inductive Component : Type
  | Text : List Char → Component
  | Variable : List Char → Component
  | Regex : List Char → Component
  | NamedRegex : List Char → List Char → Component
deriving DecidableEq, Repr

/-- A `Matcher` is its component sequence (`struct Matcher { components: Vec<Component> }`). -/
abbrev Matcher : Type := List Component

/-- Model of Rust `char::is_alphanumeric` (Unicode `Alphabetic` or general
category `N`), exact on all of `U+0000`–`U+00FF` (Basic Latin and Latin-1
Supplement): ASCII alphanumerics, the Latin-1 letters `U+00C0`–`U+00FF`
minus `×` (`U+00D7`) and `÷` (`U+00F7`), the letters `ª µ º`, and the
numerics `² ³ ¹ ¼ ½ ¾`.  Characters above `U+00FF` are outside the
modelled range and the function returns `false` for them even though
Rust accepts many (Greek, Cyrillic, CJK, non-ASCII digits); every
theorem whose truth depends on a character being *non*-alphanumeric
therefore additionally requires that character to satisfy
`modeledAlnumRange`, so the predicate is only ever relied on where it is
exact. -/
def rustIsAlphanumeric (c : Char) : Bool :=
  c.isAlphanum
  || (0xC0 ≤ c.toNat && c.toNat ≤ 0xFF && c.toNat != 0xD7 && c.toNat != 0xF7)
  || c.toNat == 0xAA || c.toNat == 0xB5 || c.toNat == 0xBA
  || c.toNat == 0xB2 || c.toNat == 0xB3 || c.toNat == 0xB9
  || c.toNat == 0xBC || c.toNat == 0xBD || c.toNat == 0xBE

/-- The character range on which `rustIsAlphanumeric` agrees exactly
with Rust's `char::is_alphanumeric`. -/
def modeledAlnumRange (c : Char) : Bool :=
  c.toNat < 0x100

/-- First character class of `IDENTIFIER_REGEX = ^[a-zA-Z_][a-zA-Z0-9_]*$`. -/
def isIdentStart (c : Char) : Bool :=
  c.isAlpha || c == '_'

/-- Continuation character class `[a-zA-Z0-9_]` of `IDENTIFIER_REGEX`. -/
def isIdentCont (c : Char) : Bool :=
  c.isAlphanum || c == '_'

/-- `IDENTIFIER_REGEX.is_match`: the whole string matches
`^[a-zA-Z_][a-zA-Z0-9_]*$`. -/
def isIdentifierMatch : List Char → Bool
  | [] => false
  | c :: rest => isIdentStart c && rest.all isIdentCont

/-- UTF-8 byte length of a character sequence: Rust `String::len`. -/
def utf8Len (cs : List Char) : Nat :=
  (cs.map Char.utf8Size).sum

/-- Split a character sequence at a UTF-8 *byte* offset, as a Rust string
slice does.  Returns `none` when the byte offset is not a character
boundary (in Rust: an index-out-of-bounds/char-boundary panic). -/
def byteSplit : List Char → Nat → Option (List Char × List Char)
  | cs, 0 => some ([], cs)
  | [], _ + 1 => none
  | c :: cs, n + 1 =>
    if c.utf8Size ≤ n + 1 then
      (byteSplit cs (n + 1 - c.utf8Size)).map (fun p => (c :: p.1, p.2))
    else none

/-- `Iterator::position`: index of the first element satisfying `p`. -/
def position (p : Char → Bool) : List Char → Option Nat
  | [] => none
  | c :: rest => if p c then some 0 else (position p rest).map (· + 1)

/-- The named/anonymous disambiguation applied to a raw regex body
(`matcher.rs` lines 79–96).  `first_colon_idx` is the *character* position
of the first `:` (`regex.chars().position(..)`), but the Rust code then
slices `&regex[0..first_colon_idx]` and `&regex[first_colon_idx+1..]` by
*bytes*; `none` models the resulting char-boundary panic. -/
def classify (body : List Char) : Option Component :=
  match position (fun c => c == ':') body with
  | none => some (Component.Regex body)
  | some i =>
    match byteSplit body i with
    | none => none
    | some (pre, _) =>
      if isIdentifierMatch pre then
        match byteSplit body (i + 1) with
        | none => none
        | some (_, pat) => some (Component.NamedRegex pre pat)
      else some (Component.Regex body)

/-- Bracket-depth bookkeeping of the regex-block scanner: `[` increments,
`]` decrements, anything else leaves the level unchanged. -/
def bracketAdjust (c : Char) (lvl : Int) : Int :=
  if c = '[' then lvl + 1 else if c = ']' then lvl - 1 else lvl

/-- The inner scanning loop of `Matcher::parse` (lines 56–75): collect the
raw regex body after `[[`.  Returns the body and the characters remaining
after the terminating `]]` pair (or `[]` when end of input closed the
block).  The accumulator is kept reversed, mirroring pushes onto
`current_regex`. -/
def scanRegexBody : List Char → Int → List Char → List Char × List Char
  | [], _, acc => (acc.reverse, [])
  | [c], _, acc => ((c :: acc).reverse, [])
  | c1 :: c2 :: rest, lvl, acc =>
    if c1 = ']' ∧ c2 = ']' ∧ lvl = 0 then (acc.reverse, rest)
    else scanRegexBody (c2 :: rest) (bracketAdjust c1 lvl) (c1 :: acc)

/-- The main scanning loop of `Matcher::parse` (lines 31–107).  Arguments:
remaining input, the pending `current_text` accumulator, and the
components emitted so far.  Each branch mirrors one arm of the Rust
`match (chars.next(), chars.peek().cloned())`. -/
def parseLoop : List Char → List Char → List Component → Option (List Component)
  | [], cur, comps => some (comps ++ [Component.Text cur])
  | c :: rest, cur, comps =>
    if c = '$' ∧ rest.head? = some '$' then
      parseLoop
        ((rest.tail).drop
          ((utf8Len ((rest.tail).takeWhile rustIsAlphanumeric) + (2 ^ 64 - 1)) % 2 ^ 64 + 1))
        cur
        (comps ++ [Component.Variable ((rest.tail).takeWhile rustIsAlphanumeric)])
    else if c = '[' ∧ rest.head? = some '[' then
      match classify (scanRegexBody (rest.tail) 0 []).1 with
      | none => none
      | some comp =>
        parseLoop (scanRegexBody (rest.tail) 0 []).2 []
          (comps ++ [Component.Text cur, comp])
    else
      parseLoop rest (cur ++ [c]) comps
termination_by s _ _ => s.length
decreasing_by
  · simp only [List.length_drop, List.length_cons]
    have h : rest.tail.length = rest.length - 1 := List.length_tail rest
    omega
  · have h : ∀ cs lvl acc, (scanRegexBody cs lvl acc).2.length ≤ cs.length := by
      intro cs
      induction cs with
      | nil => intro _ _; simp [scanRegexBody]
      | cons c1 cs1 ih =>
        intro lvl acc
        cases cs1 with
        | nil => simp [scanRegexBody]
        | cons c2 rest2 =>
          rw [scanRegexBody]
          split
          · simp only [List.length_cons]
            omega
          · exact le_trans (ih (bracketAdjust c1 lvl) (c1 :: acc)) (by simp)
    have h1 := h (rest.tail) 0 []
    have h2 : rest.tail.length = rest.length - 1 := List.length_tail rest
    simp only [List.length_cons]
    omega
  · simp

/-- `Matcher::parse` on a character sequence.  `none` models a panic. -/
def parseChars (s : List Char) : Option Matcher :=
  parseLoop s [] []

/-- `Matcher::parse`. -/
def Matcher.parse (s : String) : Option Matcher :=
  parseChars s.toList

/-- Serialization of one component (`impl fmt::Display for Matcher`,
lines 126–139). -/
def serializeComponent : Component → List Char
  | Component.Text t => t
  | Component.Variable n => '$' :: '$' :: n
  | Component.Regex r => '[' :: '[' :: (r ++ [']', ']'])
  | Component.NamedRegex n r => '[' :: '[' :: (n ++ ':' :: (r ++ [']', ']']))

/-- `impl fmt::Display for Matcher`: concatenate the components in order. -/
def serialize (m : Matcher) : List Char :=
  (m.map serializeComponent).flatten

/-- The escaped regex metacharacters of `regex::escape`
(`regex-syntax`, `is_meta_character`). -/
def isRegexMetaChar (c : Char) : Bool :=
  c == '\\' || c == '.' || c == '+' || c == '*' || c == '?' || c == '(' ||
  c == ')' || c == '|' || c == '[' || c == ']' || c == '{' || c == '}' ||
  c == '^' || c == '$' || c == '#' || c == '&' || c == '-' || c == '~'

/-- `regex::escape` on one character. -/
def rustRegexEscapeChar (c : Char) : List Char :=
  if isRegexMetaChar c then ['\\', c] else [c]

/-- `regex::escape`: backslash-escape every regex metacharacter. -/
def rustRegexEscape (t : List Char) : List Char :=
  (t.map rustRegexEscapeChar).flatten

/-- One step of `Matcher::resolve` (lines 112–121): the regex-source
fragment contributed by a component.  An unbound variable is the
`.expect("no variable with that name")` panic, carried as an
`Except.error` holding exactly that panic message. -/
def resolveComponent (vars : List Char → Option (List Char)) :
    Component → Except String (List Char)
  | Component.Text t => Except.ok (rustRegexEscape t)
  | Component.Variable n =>
    match vars n with
    | some v => Except.ok v
    | none => Except.error ("no variable with that name")
  | Component.Regex r => Except.ok r
  | Component.NamedRegex n r =>
    Except.ok ('(' :: '?' :: 'P' :: '<' :: (n ++ '>' :: (r ++ [')'])))

/-- The `regex_parts` vector of `Matcher::resolve`: each component mapped
to its fragment, stopping at the first panic (an `expect` aborts the whole
call). -/
def resolveParts (vars : List Char → Option (List Char)) :
    List Component → Except String (List (List Char))
  | [] => Except.ok []
  | comp :: rest =>
    match resolveComponent vars comp with
    | Except.error e => Except.error e
    | Except.ok frag =>
      match resolveParts vars rest with
      | Except.error e => Except.error e
      | Except.ok frags => Except.ok (frag :: frags)

/-- `Matcher::resolve`: map every component to its fragment and join the
fragments in order (`regex_parts.join("")`).  The result is the source
string handed to `Regex::new` (regex compilation itself is outside this
model). -/
def resolve (m : Matcher) (vars : List Char → Option (List Char)) :
    Except String (List Char) :=
  (resolveParts vars m).map List.flatten

/-- `plainText t next` holds when scanning `t` with the character `next`
following it stays entirely in the literal-text arm of the scanner: no
`$$` or `[[` marker pair occurs inside `t` nor across its last character
and `next`. -/
def plainText : List Char → Option Char → Bool
  | [], _ => true
  | c :: rest, next =>
    (match rest.head? with
     | some r => !(c == '$' && r == '$') && !(c == '[' && r == '[')
     | none =>
       !(c == '$' && next == some '$') && !(c == '[' && next == some '['))
    && plainText rest next

/-- `bodyOk r lvl` holds when the block scanner started at bracket level
`lvl` runs through all of `r` without terminating and reaches the end of
`r` at level `0`: exactly the condition under which the serialized form
`r ++ "]]" ++ t` scans back to the body `r` with `t` untouched. -/
def bodyOk : List Char → Int → Bool
  | [], lvl => lvl == 0
  | c :: rest, lvl =>
    (if c = ']' ∧ lvl = 0 then
       match rest.head? with
       | some r => r != ']'
       | none => false
     else true)
    && bodyOk rest (bracketAdjust c lvl)

/-- `bodyOkEof r lvl` holds when the block scanner started at level `lvl`
runs through all of `r` without ever observing a terminating `]]` pair at
level `0`, so that end of input closes the block. -/
def bodyOkEof : List Char → Int → Bool
  | [], _ => true
  | [_], _ => true
  | c1 :: c2 :: rest, lvl =>
    !(c1 == ']' && c2 == ']' && lvl == 0) && bodyOkEof (c2 :: rest) (bracketAdjust c1 lvl)

/-- `wfComponents m` captures the component sequences whose serialization
re-parses to exactly `m`: the shape alternates variables and
text-then-regex pairs and ends in a final text run (the shape `parse`
itself emits), text runs contain no marker pairs, variable names are
nonempty all-alphanumeric single-byte runs whose following serialized
character (if any) lies in the exactly-modelled Latin-1 range and is not
alphanumeric, and regex bodies scan back to themselves and are
classified unchanged. -/
def wfComponents : List Component → Bool
  | [] => false
  | [Component.Text t] => plainText t none
  | Component.Variable n :: rest =>
    !n.isEmpty && n.all (fun c => rustIsAlphanumeric c && c.utf8Size == 1)
      && decide (n.length < 2 ^ 64)
      && (match (serialize rest).head? with
          | some c => modeledAlnumRange c && !rustIsAlphanumeric c
          | none => true)
      && wfComponents rest
  | Component.Text t :: Component.Regex r :: rest =>
    plainText t (some '[') && bodyOk r 0
      && (classify r == some (Component.Regex r))
      && wfComponents rest
  | Component.Text t :: Component.NamedRegex n r :: rest =>
    plainText t (some '[') && isIdentifierMatch n && bodyOk (n ++ ':' :: r) 0
      && wfComponents rest
  | _ => false

/-- Modelled from the spec (§4.2 resolver contract): the regex-source
fragment each component contributes, written exactly as the specification
words it — escaped text, the exact bound value, the verbatim pattern, and
the `name`-labelled capture group.  This is the specification-side
counterpart against which `resolve` is compared. -/
def specFragment (vars : List Char → Option (List Char)) : Component → List Char
  | Component.Text t => rustRegexEscape t
  | Component.Variable n => (vars n).getD []
  | Component.Regex r => r
  | Component.NamedRegex n r => '(' :: '?' :: 'P' :: '<' :: (n ++ '>' :: (r ++ [')']))

def utf8Boundary (cs : List Char) (i : Nat) : Bool :=
  (List.range (cs.length + 1)).any (fun k => utf8Len (cs.take k) == i)

/-! ## Basic facts about the scanner loop -/

theorem scanRegexBody_rest_length_le (cs : List Char) (lvl : Int) (acc : List Char) :
    (scanRegexBody cs lvl acc).2.length ≤ cs.length := by
  induction cs generalizing lvl acc with
  | nil => simp [scanRegexBody]
  | cons c cs ih =>
    cases cs with
    | nil => simp [scanRegexBody]
    | cons c2 rest =>
      rw [scanRegexBody]
      split
      · simp only [List.length_cons]
        omega
      · exact le_trans (ih (bracketAdjust c lvl) (c :: acc)) (by simp)

theorem parseLoop_nil (cur : List Char) (comps : List Component) :
    parseLoop [] cur comps = some (comps ++ [Component.Text cur]) := by
  rw [parseLoop]

theorem parseLoop_var (rest : List Char) (cur : List Char) (comps : List Component) :
    parseLoop ('$' :: '$' :: rest) cur comps =
      parseLoop
        (rest.drop ((utf8Len (rest.takeWhile rustIsAlphanumeric) + (2 ^ 64 - 1)) % 2 ^ 64 + 1))
        cur (comps ++ [Component.Variable (rest.takeWhile rustIsAlphanumeric)]) := by
  rw [parseLoop]
  simp

theorem parseLoop_reg (rest : List Char) (cur : List Char) (comps : List Component) :
    parseLoop ('[' :: '[' :: rest) cur comps =
      match classify (scanRegexBody rest 0 []).1 with
      | none => none
      | some comp =>
        parseLoop (scanRegexBody rest 0 []).2 [] (comps ++ [Component.Text cur, comp]) := by
  rw [parseLoop]
  simp

theorem parseLoop_other (c : Char) (rest : List Char) (cur : List Char) (comps : List Component)
    (h1 : ¬(c = '$' ∧ rest.head? = some '$')) (h2 : ¬(c = '[' ∧ rest.head? = some '[')) :
    parseLoop (c :: rest) cur comps = parseLoop rest (cur ++ [c]) comps := by
  rw [parseLoop]
  rw [if_neg h1, if_neg h2]

/-! ## Character-class facts -/

theorem uint32_toNat_le_of_le {a b : UInt32} (h : a ≤ b) : a.toNat ≤ b.toNat := by
  change a.toBitVec ≤ b.toBitVec at h
  rw [BitVec.le_def] at h
  exact h

theorem utf8Size_one_of_toNat_lt {c : Char} (h : c.toNat < 128) : c.utf8Size = 1 := by
  unfold Char.utf8Size
  rw [if_pos]
  change c.val.toBitVec ≤ _
  rw [BitVec.le_def]
  have e : ((UInt32.ofNatCore 127 Char.utf8Size.proof_1).toBitVec).toNat = 127 := by decide
  rw [e]
  exact Nat.le_of_lt_succ h

theorem toNat_lt_of_isIdentStart {c : Char} (h : isIdentStart c = true) : c.toNat < 128 := by
  simp [isIdentStart, Char.isAlpha, Char.isUpper, Char.isLower] at h
  rcases h with (⟨h1, h2⟩ | ⟨h1, h2⟩) | rfl
  · have h3 := uint32_toNat_le_of_le h2
    have e : (90 : UInt32).toNat = 90 := by decide
    have e2 : c.val.toNat = c.toNat := rfl
    omega
  · have h3 := uint32_toNat_le_of_le h2
    have e : (122 : UInt32).toNat = 122 := by decide
    have e2 : c.val.toNat = c.toNat := rfl
    omega
  · decide

theorem toNat_lt_of_isIdentCont {c : Char} (h : isIdentCont c = true) : c.toNat < 128 := by
  simp [isIdentCont, Char.isAlphanum, Char.isAlpha, Char.isDigit, Char.isUpper,
    Char.isLower] at h
  rcases h with ((⟨h1, h2⟩ | ⟨h1, h2⟩) | ⟨h1, h2⟩) | rfl
  · have h3 := uint32_toNat_le_of_le h2
    have e : (90 : UInt32).toNat = 90 := by decide
    have e2 : c.val.toNat = c.toNat := rfl
    omega
  · have h3 := uint32_toNat_le_of_le h2
    have e : (122 : UInt32).toNat = 122 := by decide
    have e2 : c.val.toNat = c.toNat := rfl
    omega
  · have h3 := uint32_toNat_le_of_le h2
    have e : (57 : UInt32).toNat = 57 := by decide
    have e2 : c.val.toNat = c.toNat := rfl
    omega
  · decide

theorem ident_toNat_lt {c : Char} (h : isIdentStart c = true ∨ isIdentCont c = true) :
    c.toNat < 128 := by
  rcases h with h | h
  · exact toNat_lt_of_isIdentStart h
  · exact toNat_lt_of_isIdentCont h

theorem isIdentStart_ne_colon {c : Char} (h : isIdentStart c = true) : (c == ':') = false := by
  cases hc : c == ':' with
  | false => rfl
  | true =>
    have : c = ':' := by
      exact eq_of_beq hc
    subst this
    simp [isIdentStart] at h

theorem isIdentCont_ne_colon {c : Char} (h : isIdentCont c = true) : (c == ':') = false := by
  cases hc : c == ':' with
  | false => rfl
  | true =>
    have : c = ':' := by
      exact eq_of_beq hc
    subst this
    simp [isIdentCont, Char.isAlphanum, Char.isAlpha, Char.isDigit, Char.isUpper,
      Char.isLower] at h

/-! ## Literal text runs -/

theorem parseLoop_text (t : List Char) (rest : List Char) (cur : List Char)
    (comps : List Component) (h : plainText t rest.head? = true) :
    parseLoop (t ++ rest) cur comps = parseLoop rest (cur ++ t) comps := by
  induction t generalizing cur with
  | nil => simp
  | cons c t ih =>
    rw [plainText] at h
    simp only [Bool.and_eq_true] at h
    have hcond : ¬(c = '$' ∧ (t ++ rest).head? = some '$') ∧
        ¬(c = '[' ∧ (t ++ rest).head? = some '[') := by
      cases t with
      | nil =>
        simp only [List.head?_nil] at h
        simp only [List.nil_append]
        constructor
        · intro hx
          rw [hx.1, hx.2] at h
          simp at h
        · intro hx
          rw [hx.1, hx.2] at h
          simp at h
      | cons r t2 =>
        simp only [List.head?_cons] at h
        simp only [List.cons_append, List.head?_cons]
        constructor
        · intro hx
          rw [hx.1] at h
          have hr : r = '$' := by
            have := hx.2
            simpa using this
          rw [hr] at h
          simp at h
        · intro hx
          rw [hx.1] at h
          have hr : r = '[' := by
            have := hx.2
            simpa using this
          rw [hr] at h
          simp at h
    rw [List.cons_append, parseLoop_other c (t ++ rest) cur comps hcond.1 hcond.2]
    rw [ih (cur ++ [c]) h.2]
    simp

/-! ## The regex-block scan -/

theorem scanRegexBody_closes (r : List Char) (t : List Char) (lvl : Int) (acc : List Char)
    (h : bodyOk r lvl = true) :
    scanRegexBody (r ++ ']' :: ']' :: t) lvl acc = (acc.reverse ++ r, t) := by
  induction r generalizing lvl acc with
  | nil =>
    have hlvl : lvl = 0 := by
      simpa [bodyOk] using h
    subst hlvl
    rw [List.nil_append, scanRegexBody, if_pos ⟨rfl, rfl, rfl⟩]
    simp
  | cons c r ih =>
    rw [bodyOk, Bool.and_eq_true] at h
    cases r with
    | nil =>
      have hguard : ¬(c = ']' ∧ lvl = 0) := by
        intro hx
        rw [if_pos hx] at h
        simp at h
      have hlvl2 : bracketAdjust c lvl = 0 := by
        have := h.2
        simpa [bodyOk] using this
      rw [List.cons_append, List.nil_append, scanRegexBody, if_neg]
      · rw [scanRegexBody, if_pos ⟨rfl, rfl, hlvl2⟩]
        simp
      · intro hx
        exact hguard ⟨hx.1, hx.2.2⟩
    | cons c2 r2 =>
      have hguard : ¬(c = ']' ∧ c2 = ']' ∧ lvl = 0) := by
        intro hx
        rw [if_pos ⟨hx.1, hx.2.2⟩] at h
        simp only [List.head?_cons] at h
        rw [hx.2.1] at h
        simp at h
      rw [List.cons_append, List.cons_append, scanRegexBody, if_neg hguard]
      rw [← List.cons_append, ih (bracketAdjust c lvl) (c :: acc) h.2]
      simp

theorem scanRegexBody_eof (r : List Char) (lvl : Int) (acc : List Char)
    (h : bodyOkEof r lvl = true) :
    scanRegexBody r lvl acc = (acc.reverse ++ r, []) := by
  induction r generalizing lvl acc with
  | nil => simp [scanRegexBody]
  | cons c r ih =>
    cases r with
    | nil => simp [scanRegexBody]
    | cons c2 r2 =>
      rw [bodyOkEof, Bool.and_eq_true] at h
      have hguard : ¬(c = ']' ∧ c2 = ']' ∧ lvl = 0) := by
        intro hx
        rw [hx.1, hx.2.1] at h
        have := h.1
        simp at this
        omega
      rw [scanRegexBody, if_neg hguard, ih (bracketAdjust c lvl) (c :: acc) h.2]
      simp

/-! ## Lemmas for the variable name and the colon split -/

theorem takeWhile_append_all (p : Char → Bool) (n s : List Char)
    (h1 : n.all p = true)
    (h2 : ∀ c, s.head? = some c → p c = false) :
    (n ++ s).takeWhile p = n := by
  induction n with
  | nil =>
    cases s with
    | nil => rfl
    | cons c s2 =>
      have hc : p c = false := h2 c rfl
      simp [List.takeWhile_cons, hc]
  | cons c n ih =>
    rw [List.all_cons, Bool.and_eq_true] at h1
    rw [List.cons_append, List.takeWhile_cons, h1.1]
    rw [ih h1.2]
    simp

theorem utf8Len_eq_length {n : List Char} (h : n.all (fun c => c.utf8Size == 1) = true) :
    utf8Len n = n.length := by
  induction n with
  | nil => rfl
  | cons c n ih =>
    rw [List.all_cons, Bool.and_eq_true] at h
    have hc : c.utf8Size = 1 := by
      have := h.1
      simpa using this
    have ih2 := ih h.2
    simp only [utf8Len, List.map_cons, List.sum_cons, List.length_cons] at ih2 ⊢
    omega

theorem byteSplit_append {n : List Char} (s : List Char) (h : ∀ c ∈ n, c.utf8Size = 1) :
    byteSplit (n ++ s) n.length = some (n, s) := by
  induction n with
  | nil => simp [byteSplit]
  | cons c n ih =>
    have hc : c.utf8Size = 1 := h c (List.mem_cons_self c n)
    have ih2 := ih (fun x hx => h x (List.mem_cons_of_mem c hx))
    rw [List.cons_append, List.length_cons, byteSplit, if_pos (by omega)]
    rw [hc, Nat.add_sub_cancel, ih2]
    rfl

theorem position_of_all_false {p : Char → Bool} {body : List Char}
    (h : ∀ x ∈ body, p x = false) : position p body = none := by
  induction body with
  | nil => rfl
  | cons c rest ih =>
    rw [position, if_neg, ih (fun x hx => h x (List.mem_cons_of_mem c hx))]
    · rfl
    · rw [h c (List.mem_cons_self c rest)]
      simp

theorem position_append {p : Char → Bool} {n : List Char} (c : Char) (s : List Char)
    (h1 : ∀ x ∈ n, p x = false) (h2 : p c = true) :
    position p (n ++ c :: s) = some n.length := by
  induction n with
  | nil =>
    rw [List.nil_append, position, if_pos h2]
    rfl
  | cons d n ih =>
    rw [List.cons_append, position, if_neg, ih (fun x hx => h1 x (List.mem_cons_of_mem d hx))]
    · rfl
    · rw [h1 d (List.mem_cons_self d n)]
      simp

theorem identifierMatch_mem {n : List Char} {x : Char} (h : isIdentifierMatch n = true)
    (hx : x ∈ n) : isIdentStart x = true ∨ isIdentCont x = true := by
  cases n with
  | nil => cases hx
  | cons c rest =>
    rw [isIdentifierMatch, Bool.and_eq_true] at h
    rcases List.mem_cons.mp hx with rfl | hmem
    · exact Or.inl h.1
    · exact Or.inr (by
        have := h.2
        rw [List.all_eq_true] at this
        exact this x hmem)

theorem identifier_utf8Size_one {n : List Char} (h : isIdentifierMatch n = true) :
    ∀ c ∈ n, c.utf8Size = 1 := by
  intro c hc
  exact utf8Size_one_of_toNat_lt (ident_toNat_lt (identifierMatch_mem h hc))

theorem identifier_no_colon {n : List Char} (h : isIdentifierMatch n = true) :
    ∀ c ∈ n, (c == ':') = false := by
  intro c hc
  rcases identifierMatch_mem h hc with hs | hs
  · exact isIdentStart_ne_colon hs
  · exact isIdentCont_ne_colon hs

/-- A regex body of the form `name:pattern` with `name` matching the
identifier grammar is classified as a named regex. -/
theorem classify_named {n r : List Char} (h : isIdentifierMatch n = true) :
    classify (n ++ ':' :: r) = some (Component.NamedRegex n r) := by
  have hpos := position_append ':' r (identifier_no_colon h) (by simp)
  have hbs1 := byteSplit_append (':' :: r) (identifier_utf8Size_one h)
  have hbs2 : byteSplit (n ++ ':' :: r) (n.length + 1) = some (n ++ [':'], r) := by
    have e : n ++ ':' :: r = (n ++ [':']) ++ r := by simp
    have e2 : n.length + 1 = (n ++ [':']).length := by simp
    rw [e, e2]
    refine byteSplit_append r ?_
    intro c hc
    rcases List.mem_append.mp hc with hc2 | hc2
    · exact identifier_utf8Size_one h c hc2
    · rw [List.mem_singleton.mp hc2]
      rfl
  simp only [classify, hpos, hbs1, hbs2, h, if_true]

/-- A colon-free regex body is classified as an anonymous regex. -/
theorem classify_no_colon {body : List Char} (h : ∀ x ∈ body, (x == ':') = false) :
    classify body = some (Component.Regex body) := by
  rw [classify, position_of_all_false h]

/-! ## Well-formed component sequences and the serialization round trip -/

theorem parseLoop_serialize (m : List Component) (h : wfComponents m = true)
    (comps : List Component) :
    parseLoop (serialize m) [] comps = some (comps ++ m) := by
  induction m using wfComponents.induct generalizing comps
  case case1 =>
    exfalso
    rw [wfComponents] at h
    exact Bool.false_ne_true h
  case case2 t =>
    rw [wfComponents] at h
    have e : serialize [Component.Text t] = t ++ [] := by simp [serialize, serializeComponent]
    rw [e, parseLoop_text t [] [] comps h, parseLoop_nil]
    simp
  case case3 n rest ih =>
    rw [wfComponents] at h
    simp only [Bool.and_eq_true] at h
    obtain ⟨⟨⟨⟨hne, hall⟩, hlen⟩, hhead⟩, hwf⟩ := h
    have halnum : n.all rustIsAlphanumeric = true := by
      rw [List.all_eq_true] at hall ⊢
      intro x hx
      have := hall x hx
      simp only [Bool.and_eq_true] at this
      exact this.1
    have hsize : n.all (fun c => c.utf8Size == 1) = true := by
      rw [List.all_eq_true] at hall ⊢
      intro x hx
      have := hall x hx
      simp only [Bool.and_eq_true] at this
      exact this.2
    have hhead2 : ∀ c, (serialize rest).head? = some c → rustIsAlphanumeric c = false := by
      intro c hc
      rw [hc] at hhead
      simp only [Bool.and_eq_true] at hhead
      simpa using hhead.2
    have e : serialize (Component.Variable n :: rest) = '$' :: '$' :: (n ++ serialize rest) := by
      simp [serialize, serializeComponent]
    rw [e, parseLoop_var]
    rw [takeWhile_append_all rustIsAlphanumeric n (serialize rest) halnum hhead2]
    have hone : 1 ≤ n.length := by
      have hne2 : n ≠ [] := by simpa using hne
      exact List.length_pos.mpr hne2
    have hlt : n.length < 2 ^ 64 := of_decide_eq_true hlen
    have hskip : (utf8Len n + (2 ^ 64 - 1)) % 2 ^ 64 + 1 = n.length := by
      rw [utf8Len_eq_length hsize]
      omega
    rw [hskip, List.drop_left]
    rw [ih hwf (comps ++ [Component.Variable n])]
    simp
  case case4 t r rest ih =>
    rw [wfComponents] at h
    simp only [Bool.and_eq_true] at h
    obtain ⟨⟨⟨hpt, hbody⟩, hcls⟩, hwf⟩ := h
    have hcl : classify r = some (Component.Regex r) := by simpa using hcls
    have e : serialize (Component.Text t :: Component.Regex r :: rest) =
        t ++ ('[' :: '[' :: (r ++ ']' :: ']' :: serialize rest)) := by
      simp [serialize, serializeComponent]
    rw [e, parseLoop_text t ('[' :: '[' :: (r ++ ']' :: ']' :: serialize rest)) [] comps hpt]
    rw [parseLoop_reg]
    rw [scanRegexBody_closes r (serialize rest) 0 [] hbody]
    simp only [List.reverse_nil, List.nil_append, hcl]
    rw [ih hwf (comps ++ [Component.Text t, Component.Regex r])]
    simp
  case case5 t n r rest ih =>
    rw [wfComponents] at h
    simp only [Bool.and_eq_true] at h
    obtain ⟨⟨⟨hpt, hident⟩, hbody⟩, hwf⟩ := h
    have e : serialize (Component.Text t :: Component.NamedRegex n r :: rest) =
        t ++ ('[' :: '[' :: ((n ++ ':' :: r) ++ ']' :: ']' :: serialize rest)) := by
      simp [serialize, serializeComponent]
    rw [e, parseLoop_text t ('[' :: '[' :: ((n ++ ':' :: r) ++ ']' :: ']' :: serialize rest))
      [] comps hpt]
    rw [parseLoop_reg]
    rw [scanRegexBody_closes (n ++ ':' :: r) (serialize rest) 0 [] hbody]
    simp only [List.reverse_nil, List.nil_append, classify_named hident]
    rw [ih hwf (comps ++ [Component.Text t, Component.NamedRegex n r])]
    simp
  all_goals (exfalso; revert h; simp [wfComponents])

/-! ## The scanner always ends with a text component -/

theorem parseLoop_last (rem : List Char) (cur : List Char) (comps : List Component)
    (m : List Component) (h : parseLoop rem cur comps = some m) :
    m ≠ [] ∧ ∃ t, m.getLast? = some (Component.Text t) := by
  induction rem, cur, comps using parseLoop.induct with
  | case1 cur comps =>
    rw [parseLoop_nil] at h
    injection h with h2
    subst h2
    refine ⟨by simp, cur, ?_⟩
    simp [List.getLast?_append]
  | case2 c rest cur comps hcase ih =>
    rw [parseLoop, if_pos hcase] at h
    exact ih h
  | case3 c rest cur comps h1 h2 hnone =>
    rw [parseLoop, if_neg h1, if_pos h2, hnone] at h
    simp at h
  | case4 c rest cur comps h1 h2 comp hcl ih =>
    rw [parseLoop, if_neg h1, if_pos h2, hcl] at h
    exact ih h
  | case5 c rest cur comps h1 h2 ih =>
    rw [parseLoop, if_neg h1, if_neg h2] at h
    exact ih h

/-! ## Component order: the pending text run is flushed after the variable -/

/-- C2 (amended): the scanner preserves the source order of the marker
constructs (variables and regex blocks), but a literal text run pending
when a `$$` marker is scanned is *not* flushed there: it is emitted at
the next `[[` boundary (or end of input), after the `Variable`
component.  Concretely, for a schematic source `t1 $$v t2 [[r]] t3` the
result is `[Variable v, Text (t1 ++ t2), Regex r, Text t3]` — the
`Variable` precedes the `Text` holding `t1` although `t1` precedes the
marker in the source.  The character following the variable name must be
non-alphanumeric and lie in the exactly-modelled `U+0000`–`U+00FF`
range. -/
theorem parseChars_text_var_regex (t1 v t2 r t3 : List Char)
    (h1 : plainText t1 (some '$') = true)
    (hv1 : v ≠ [])
    (hv2 : v.all (fun c => rustIsAlphanumeric c && c.utf8Size == 1) = true)
    (hv3 : v.length < 2 ^ 64)
    (hnext : ∀ c, (t2 ++ '[' :: '[' :: (r ++ ']' :: ']' :: t3)).head? = some c →
      modeledAlnumRange c = true ∧ rustIsAlphanumeric c = false)
    (h2 : plainText t2 (some '[') = true)
    (hr1 : bodyOk r 0 = true)
    (hr2 : classify r = some (Component.Regex r))
    (h3 : plainText t3 none = true) :
    parseChars (t1 ++ '$' :: '$' :: (v ++ (t2 ++ '[' :: '[' :: (r ++ ']' :: ']' :: t3)))) =
      some [Component.Variable v, Component.Text (t1 ++ t2), Component.Regex r,
        Component.Text t3] := by
  have halnum : v.all rustIsAlphanumeric = true := by
    rw [List.all_eq_true] at hv2 ⊢
    intro x hx
    have := hv2 x hx
    simp only [Bool.and_eq_true] at this
    exact this.1
  have hsize : v.all (fun c => c.utf8Size == 1) = true := by
    rw [List.all_eq_true] at hv2 ⊢
    intro x hx
    have := hv2 x hx
    simp only [Bool.and_eq_true] at this
    exact this.2
  rw [parseChars]
  rw [parseLoop_text t1 ('$' :: '$' :: (v ++ (t2 ++ '[' :: '[' :: (r ++ ']' :: ']' :: t3))))
    [] [] h1]
  rw [parseLoop_var]
  rw [takeWhile_append_all rustIsAlphanumeric v _ halnum (fun c hc => (hnext c hc).2)]
  have hskip : (utf8Len v + (2 ^ 64 - 1)) % 2 ^ 64 + 1 = v.length := by
    rw [utf8Len_eq_length hsize]
    have hone : 1 ≤ v.length := List.length_pos.mpr hv1
    omega
  rw [hskip, List.drop_left]
  rw [parseLoop_text t2 ('[' :: '[' :: (r ++ ']' :: ']' :: t3)) ([] ++ t1) _ h2]
  rw [parseLoop_reg]
  rw [scanRegexBody_closes r t3 0 [] hr1]
  simp only [List.reverse_nil, List.nil_append, hr2]
  conv_lhs => rw [← List.append_nil t3]
  rw [parseLoop_text t3 [] [] _ h3, parseLoop_nil]
  simp

/-! ## The resolver -/

theorem resolveParts_ok (m : List Component) (vars : List Char → Option (List Char))
    (h : ∀ n, Component.Variable n ∈ m → (vars n).isSome = true) :
    resolveParts vars m = Except.ok (m.map (specFragment vars)) := by
  induction m with
  | nil => rfl
  | cons comp m ih =>
    have ih2 := ih (fun n hn => h n (List.mem_cons_of_mem comp hn))
    cases comp with
    | Text t => simp [resolveParts, resolveComponent, specFragment, ih2]
    | Variable n =>
      have hv := h n (List.mem_cons_self _ _)
      obtain ⟨v, hv2⟩ := Option.isSome_iff_exists.mp hv
      simp [resolveParts, resolveComponent, specFragment, ih2, hv2]
    | Regex r => simp [resolveParts, resolveComponent, specFragment, ih2]
    | NamedRegex n r => simp [resolveParts, resolveComponent, specFragment, ih2]

/-! ## Character-boundary facts for the colon split -/

theorem byteSplit_utf8Len (pre post : List Char) :
    byteSplit (pre ++ post) (utf8Len pre) = some (pre, post) := by
  induction pre with
  | nil => simp [byteSplit, utf8Len]
  | cons c pre ih =>
    have hsize : 1 ≤ c.utf8Size := Char.utf8Size_pos c
    have hlen : utf8Len (c :: pre) = c.utf8Size + utf8Len pre := by
      simp [utf8Len]
    cases hn : utf8Len (c :: pre) with
    | zero => omega
    | succ n =>
      show (if c.utf8Size ≤ n + 1 then
          Option.map (fun p => (c :: p.1, p.2)) (byteSplit (pre ++ post) (n + 1 - c.utf8Size))
        else none) = some (c :: pre, post)
      have e : n + 1 - c.utf8Size = utf8Len pre := by omega
      rw [if_pos (show c.utf8Size ≤ n + 1 by omega), e, ih]
      rfl

theorem classify_nonident_boundary (pre post : List Char)
    (hnc : ∀ x ∈ pre, (x == ':') = false)
    (hni : isIdentifierMatch pre = false)
    (hb : utf8Boundary (pre ++ ':' :: post) pre.length = true) :
    classify (pre ++ ':' :: post) = some (Component.Regex (pre ++ ':' :: post)) := by
  have hpos := position_append ':' post hnc (by simp)
  rw [utf8Boundary, List.any_eq_true] at hb
  obtain ⟨k, hk1, hk2⟩ := hb
  have hk3 : utf8Len ((pre ++ ':' :: post).take k) = pre.length := by simpa using hk2
  have hsplit : byteSplit (pre ++ ':' :: post) pre.length =
      some ((pre ++ ':' :: post).take k, (pre ++ ':' :: post).drop k) := by
    have hbs := byteSplit_utf8Len ((pre ++ ':' :: post).take k) ((pre ++ ':' :: post).drop k)
    rw [List.take_append_drop, hk3] at hbs
    exact hbs
  have hident : isIdentifierMatch ((pre ++ ':' :: post).take k) = false := by
    cases hid : isIdentifierMatch ((pre ++ ':' :: post).take k) with
    | false => rfl
    | true =>
      exfalso
      have hall : ((pre ++ ':' :: post).take k).all (fun c => c.utf8Size == 1) = true := by
        rw [List.all_eq_true]
        intro x hx
        have := identifier_utf8Size_one hid x hx
        simp [this]
      have hlen2 : utf8Len ((pre ++ ':' :: post).take k) =
          ((pre ++ ':' :: post).take k).length := utf8Len_eq_length hall
      have hlen3 : ((pre ++ ':' :: post).take k).length = pre.length := by omega
      have hq : (pre ++ ':' :: post).take k = pre := by
        have h1 : ((pre ++ ':' :: post).take k).take pre.length =
            (pre ++ ':' :: post).take (min pre.length k) := by
          rw [List.take_take]
        have h2 : ((pre ++ ':' :: post).take k).take pre.length =
            (pre ++ ':' :: post).take k := by
          rw [← hlen3]
          exact List.take_length _  -- take of own length
        have h3 : pre.length ≤ k := by
          have := List.length_take k (pre ++ ':' :: post)
          omega
        have h4 : min pre.length k = pre.length := by omega
        rw [h4] at h1
        have h5 : (pre ++ ':' :: post).take pre.length = pre := List.take_left pre (':' :: post)
        rw [← h2, h1, h5]
      rw [hq] at hid
      rw [hid] at hni
      exact Bool.noConfusion hni
  simp only [classify, hpos, hsplit, hident, if_false]
  simp

/-! ## Claim theorems -/

/-- C1 (amended): serializing the result of a successful parse and
re-parsing the serialized text yields the same component sequence for
every parse result that is well formed in the sense of `wfComponents`
(text runs free of marker pairs, nonempty single-byte alphanumeric
variable names whose following serialized character lies in the
exactly-modelled `U+0000`–`U+00FF` range and is not alphanumeric, regex
bodies that scan back to themselves).  The restriction is forced: the scanner
does not flush pending literal text at a `$$` marker, so e.g. `a$$v`
parses to `[Variable v, Text a]`, which serializes to `$$va` and
re-parses differently (see the counterexample). -/
theorem parse_serialize_parse_roundtrip (s : List Char) (m : Matcher)
    (_hp : parseChars s = some m) (hwf : wfComponents m = true) :
    parseChars (serialize m) = some m := by
  have h := parseLoop_serialize m hwf []
  rw [parseChars, h]
  simp

/-- C1 counterexample: for `s = "a$$v"`, `parse s = [Variable "v",
Text "a"]`, whose serialization `$$va` re-parses to `[Variable "va",
Text ""] ≠ parse s`: parse ∘ serialize ∘ parse ≠ parse. -/
theorem parse_roundtrip_counterexample :
    Matcher.parse ("a$$v") = some [Component.Variable ['v'], Component.Text ['a']] ∧
    parseChars (serialize [Component.Variable ['v'], Component.Text ['a']]) =
      some [Component.Variable ['v', 'a'], Component.Text []] ∧
    (some [Component.Variable ['v', 'a'], Component.Text []] : Option Matcher) ≠
      some [Component.Variable ['v'], Component.Text ['a']] := by
  refine ⟨?_, ?_, by decide⟩
  · simp [Matcher.parse, parseChars, parseLoop, utf8Len, rustIsAlphanumeric, Char.utf8Size]
  · simp [serialize, serializeComponent, parseChars, parseLoop, utf8Len, rustIsAlphanumeric,
      Char.utf8Size]

theorem parse_serialize_parse_roundtrip_witness :
    parseChars (String.toList ("x [[a]]")) =
      some [Component.Text ['x', ' '], Component.Regex ['a'], Component.Text []] ∧
    wfComponents [Component.Text ['x', ' '], Component.Regex ['a'], Component.Text []] = true ∧
    parseChars (serialize [Component.Text ['x', ' '], Component.Regex ['a'],
      Component.Text []]) =
      some [Component.Text ['x', ' '], Component.Regex ['a'], Component.Text []] := by
  refine ⟨?_, by decide, ?_⟩
  · simp [parseChars, parseLoop, classify, position, byteSplit, scanRegexBody, bracketAdjust,
      utf8Len, rustIsAlphanumeric, Char.utf8Size]
  · exact parse_serialize_parse_roundtrip (String.toList ("x [[a]]")) _
      (by simp [parseChars, parseLoop, classify, position, byteSplit, scanRegexBody,
        bracketAdjust, utf8Len, rustIsAlphanumeric, Char.utf8Size])
      (by decide)

/-- C2 counterexample: in `a$$v[[r]]` the literal text `a` textually
precedes the variable `v`, but the parsed sequence places the `Variable`
first: the claimed source-order preservation fails for `Text`
components. -/
theorem parse_order_counterexample :
    Matcher.parse ("a$$v[[r]]") =
      some [Component.Variable ['v'], Component.Text ['a'], Component.Regex ['r'],
        Component.Text []] ∧
    Matcher.parse ("a$$v[[r]]") ≠
      some [Component.Text ['a'], Component.Variable ['v'], Component.Regex ['r'],
        Component.Text []] := by
  have h : Matcher.parse ("a$$v[[r]]") =
      some [Component.Variable ['v'], Component.Text ['a'], Component.Regex ['r'],
        Component.Text []] := by
    simp [Matcher.parse, parseChars, parseLoop, classify, position, byteSplit, scanRegexBody,
      bracketAdjust, utf8Len, rustIsAlphanumeric, Char.utf8Size]
  refine ⟨h, ?_⟩
  rw [h]
  decide

theorem parseChars_text_var_regex_witness :
    parseChars (['a'] ++ '$' :: '$' :: (['v'] ++ ([' '] ++ '[' :: '[' ::
        (['r'] ++ ']' :: ']' :: ['b'])))) =
      some [Component.Variable ['v'], Component.Text (['a'] ++ [' ']), Component.Regex ['r'],
        Component.Text ['b']] := by
  refine parseChars_text_var_regex ['a'] ['v'] [' '] ['r'] ['b'] (by decide) (by decide)
    (by decide) (by decide) ?_ (by decide) (by decide) (by decide) (by decide)
  intro c hc
  have h2 : c = ' ' := by
    have h3 : ([' '] ++ '[' :: '[' :: (['r'] ++ ']' :: ']' :: ['b'])).head? = some ' ' := rfl
    rw [h3] at hc
    exact (Option.some.injEq _ _ ▸ hc.symm)
  rw [h2]
  exact ⟨by decide, by decide⟩

/-- C3: parse is NOT total — on `[[é:x]]` the disambiguation slices the
regex body at byte offset 1, the character position of the `:`, which is
inside the two-byte encoding of `é`, and the Rust program panics (the
model returns `none`).  The spec's totality contract is the intent and
the char-position-as-byte-offset slice is a coding slip. -/
theorem parse_panics_on_multibyte_colon : Matcher.parse ("[[é:x]]") = none := by
  simp [Matcher.parse, parseChars, parseLoop, classify, position, byteSplit, scanRegexBody,
    bracketAdjust, Char.utf8Size]

/-- C4: when every referenced variable is bound, `resolve` maps `Text t`
to the regex-escaped form of `t`, `Variable n` to the exact bound value
unescaped, `Regex p` to `p` verbatim, and `NamedRegex n p` to the
capture group `(?P<n>p)`, concatenating the fragments in component order
into the regex source; `specFragment` is the specification-side
description of the per-component fragment. -/
theorem resolve_fragments (m : Matcher) (vars : List Char → Option (List Char))
    (h : ∀ n, Component.Variable n ∈ m → (vars n).isSome = true) :
    resolve m vars = Except.ok (List.flatten (m.map (specFragment vars))) := by
  rw [resolve, resolveParts_ok m vars h]
  rfl

theorem resolve_fragments_witness :
    resolve [Component.Text ['a', '.'], Component.Variable ['x'], Component.Regex ['\\', 'd'],
        Component.NamedRegex ['g'] ['y']]
      (fun v => if v = ['x'] then some ['N'] else none) =
      Except.ok ['a', '\\', '.', 'N', '\\', 'd', '(', '?', 'P', '<', 'g', '>', 'y', ')'] := by
  have h := resolve_fragments
    [Component.Text ['a', '.'], Component.Variable ['x'], Component.Regex ['\\', 'd'],
      Component.NamedRegex ['g'] ['y']]
    (fun v => if v = ['x'] then some ['N'] else none) ?_
  · rw [h]
    rfl
  · intro n hn
    simp only [List.mem_cons, List.not_mem_nil, or_false] at hn
    rcases hn with h1 | h1 | h1 | h1
    · exact Component.noConfusion h1
    · have h2 : n = ['x'] := by
        injection h1
      rw [h2]
      decide
    · exact Component.noConfusion h1
    · exact Component.noConfusion h1

/-- C5: resolving a `Matcher` containing an unbound variable does NOT
fail with a recoverable `UnboundVariable` error naming the variable: the
code calls `.expect("no variable with that name")`, a panic whose fixed
message is identical whichever variable is missing.  The spec's error
taxonomy (§7) is the documented intent, and the `// FIXME: proper error
handling.` comment in the source confirms the code is the slip. -/
theorem resolve_unbound_panic_message :
    resolve [Component.Variable ['x']] (fun _ => none) =
      Except.error ("no variable with that name") ∧
    resolve [Component.Variable ['y']] (fun _ => none) =
      Except.error ("no variable with that name") :=
  ⟨rfl, rfl⟩

/-- C6: inside a `[[ ... ]]` block each `[` increments and each `]`
decrements the nesting level, a `]]` pair terminates the block only at
level exactly `0` (`scanRegexBody_closes` restated), end of input closes
the block without error (`bodyOkEof` case), and `[[a[b]c]]` parses to
the regex body `a[b]c`. -/
theorem bracket_nesting_depth :
    Matcher.parse ("[[a[b]c]]") =
      some [Component.Text [], Component.Regex ['a', '[', 'b', ']', 'c'],
        Component.Text []] ∧
    (∀ r t lvl acc, bodyOk r lvl = true →
      scanRegexBody (r ++ ']' :: ']' :: t) lvl acc = (acc.reverse ++ r, t)) ∧
    (∀ r lvl acc, bodyOkEof r lvl = true →
      scanRegexBody r lvl acc = (acc.reverse ++ r, [])) := by
  refine ⟨?_, scanRegexBody_closes, scanRegexBody_eof⟩
  simp [Matcher.parse, parseChars, parseLoop, classify, position, byteSplit, scanRegexBody,
    bracketAdjust, Char.utf8Size]

theorem bracket_nesting_depth_witness :
    scanRegexBody (['a', '[', 'b', ']', 'c'] ++ ']' :: ']' :: ['z']) 0 [] =
      (([] : List Char).reverse ++ ['a', '[', 'b', ']', 'c'], ['z']) ∧
    scanRegexBody ['x', ']'] 5 [] = (([] : List Char).reverse ++ ['x', ']'], []) :=
  ⟨bracket_nesting_depth.2.1 ['a', '[', 'b', ']', 'c'] ['z'] 0 [] (by decide),
   bracket_nesting_depth.2.2 ['x', ']'] 5 [] (by decide)⟩

/-- C7 (amended): if the text before the first `:` of a regex body
matches the identifier grammar, the parser yields `NamedRegex` with that
name and the text after the colon as pattern; with no colon, or with a
non-identifier prefix whose character count is a UTF-8 byte boundary of
the body (always the case for ASCII bodies), it yields an anonymous
`Regex` holding the whole body, colon included — `[[notanid!x:foo]]` and
`[[(?:abc)]]` are both anonymous.  The boundary proviso is forced: when
the character position of the colon is not a byte boundary (multi-byte
text before the colon) the byte slice panics instead of producing an
anonymous regex (see the counterexample). -/
theorem classify_disambiguation :
    Matcher.parse ("[[notanid!x:foo]]") =
      some [Component.Text [], Component.Regex (String.toList ("notanid!x:foo")),
        Component.Text []] ∧
    Matcher.parse ("[[(?:abc)]]") =
      some [Component.Text [], Component.Regex (String.toList ("(?:abc)")),
        Component.Text []] ∧
    (∀ n r, isIdentifierMatch n = true →
      classify (n ++ ':' :: r) = some (Component.NamedRegex n r)) ∧
    (∀ body, (∀ x ∈ body, (x == ':') = false) →
      classify body = some (Component.Regex body)) ∧
    (∀ pre post, (∀ x ∈ pre, (x == ':') = false) → isIdentifierMatch pre = false →
      utf8Boundary (pre ++ ':' :: post) pre.length = true →
      classify (pre ++ ':' :: post) = some (Component.Regex (pre ++ ':' :: post))) := by
  refine ⟨?_, ?_, fun n r h => classify_named h, fun body h => classify_no_colon h,
    classify_nonident_boundary⟩
  · simp [Matcher.parse, parseChars, parseLoop, classify, position, byteSplit, scanRegexBody,
      bracketAdjust, Char.utf8Size, isIdentifierMatch, isIdentStart, isIdentCont]
  · simp [Matcher.parse, parseChars, parseLoop, classify, position, byteSplit, scanRegexBody,
      bracketAdjust, Char.utf8Size, isIdentifierMatch, isIdentStart, isIdentCont]

/-- C7 counterexample: for body `aé:x` the first colon sits at character
position 2, but byte offset 2 falls inside the encoding of `é`, so the
"otherwise an anonymous Regex" branch claimed for non-identifier
prefixes is not taken — the program panics instead. -/
theorem classify_panic_counterexample : Matcher.parse ("[[aé:x]]") = none := by
  simp [Matcher.parse, parseChars, parseLoop, classify, position, byteSplit, scanRegexBody,
    bracketAdjust, Char.utf8Size]

theorem classify_disambiguation_witness :
    classify (['n'] ++ ':' :: ['p']) = some (Component.NamedRegex ['n'] ['p']) ∧
    classify ['(', ')'] = some (Component.Regex ['(', ')']) ∧
    classify (['!'] ++ ':' :: ['x']) = some (Component.Regex (['!'] ++ ':' :: ['x'])) :=
  ⟨classify_disambiguation.2.2.1 ['n'] ['p'] (by decide),
   classify_disambiguation.2.2.2.1 ['(', ')'] (by decide),
   classify_disambiguation.2.2.2.2 ['!'] ['x'] (by decide) (by decide) (by decide)⟩

/-- C8: characters are NOT always accounted for exactly once: after a
variable name containing a non-ASCII alphanumeric character the scanner
skips `name.len()` *bytes counted as characters* (`chars.nth(name.len() -
1)`), dropping extra input.  For `$$é b` the name `é` is two bytes, so
the space after it is consumed and appears in no component. -/
theorem parse_drops_char_after_multibyte_name :
    Matcher.parse ("$$é b") = some [Component.Variable ['é'], Component.Text ['b']] := by
  simp [Matcher.parse, parseChars, parseLoop, utf8Len, rustIsAlphanumeric, Char.utf8Size]

/-- C9: a `$$` marker followed by zero alphanumeric characters does
produce a `Variable` with an empty name, but scanning does NOT continue
normally: `name.len() - 1` underflows in `usize`, and the wrapped
`chars.nth(2^64 - 1)` consumes the entire remaining input (in a debug
build the overflow check panics instead).  For `$$.abc` the characters
`.abc` are swallowed and the final text component is empty. -/
theorem parse_empty_variable_name_drains_input :
    Matcher.parse ("$$.abc") = some [Component.Variable [], Component.Text []] := by
  simp [Matcher.parse, parseChars, parseLoop, utf8Len, rustIsAlphanumeric, Char.utf8Size]

/-- C10: every successful parse yields a nonempty component sequence
ending in a `Text` component (the end-of-input arm always flushes
`current_text`), and the empty string parses to exactly `[Text ""]`. -/
theorem parse_nonempty_ends_with_text :
    Matcher.parse ("") = some [Component.Text []] ∧
    ∀ s m, parseChars s = some m →
      m ≠ [] ∧ ∃ t, m.getLast? = some (Component.Text t) := by
  refine ⟨?_, fun s m h => parseLoop_last s [] [] m h⟩
  simp [Matcher.parse, parseChars, parseLoop]

theorem parse_nonempty_ends_with_text_witness :
    ([Component.Text ['h']] : Matcher) ≠ [] ∧
    ∃ t, ([Component.Text ['h']] : Matcher).getLast? = some (Component.Text t) :=
  parse_nonempty_ends_with_text.2 ['h'] [Component.Text ['h']]
    (by simp [parseChars, parseLoop])
